import Mathlib

/-!
Verification development for the `prj` project registry.

Shallow embedding of the core components:
* the fuzzy matcher (`src/tui/fuzzy.rs`),
* the project registry (`crates/prj-core/src/project.rs`),
* the detection and scan engine (`src/core/detect.rs`),
* the interactive list navigator (`src/tui/app.rs`, `src/tui/actions.rs`).

Filesystem paths are modelled as lists of path components (`List String`).
External collaborators (the filesystem, the `nucleo` scorer, git status,
statistics and clean execution) are passed in as function parameters, matching
their role as opaque boundaries in the source.
-/

/-! ## Fuzzy matcher (`src/tui/fuzzy.rs`) -/

/-- Embeds `struct FuzzyMatch { index: usize, score: u32 }`. -/
structure FuzzyMatch where
  index : Nat
  score : Nat
deriving DecidableEq, Repr

/-- One insertion step of a stable descending sort: `x` is placed before the
first element whose score is strictly smaller, i.e. after every earlier
element with an equal or larger score. -/
def insertByScoreDesc (x : FuzzyMatch) : List FuzzyMatch → List FuzzyMatch
  | [] => [x]
  | y :: ys => if y.score < x.score then x :: y :: ys else y :: insertByScoreDesc x ys

/-- Embeds `results.sort_by(|a, b| b.score.cmp(&a.score))`: Rust's `sort_by`
is a stable sort, so its observable behaviour (sorted descending by score,
ties kept in input order) is exactly that of this stable insertion sort. -/
def sortByScoreDesc (l : List FuzzyMatch) : List FuzzyMatch :=
  l.foldl (fun acc x => insertByScoreDesc x acc) []

/-- Embeds `FuzzyMatcher::filter`. The `nucleo` pattern scorer (an external
crate) is passed in as `score?`, mirroring `pattern.score(haystack, matcher)`
returning `Option<u32>`. -/
def FuzzyMatcher.filter (score? : String → String → Option Nat)
    (query : String) (items : List String) : List FuzzyMatch :=
  if query.isEmpty then
    items.enum.map (fun ie => { index := ie.1, score := 0 })
  else
    sortByScoreDesc
      (items.enum.filterMap (fun ie =>
        (score? query ie.2).map (fun s => { index := ie.1, score := s })))

/-- C4: `filter("", candidates)` returns exactly `len(candidates)` results,
one per candidate, carrying the candidate indices in original order, with no
candidate dropped and no scoring performed (the result does not depend on the
scorer at all). -/
theorem fuzzy_filter_empty_query (score? : String → String → Option Nat)
    (items : List String) :
    (FuzzyMatcher.filter score? "" items).length = items.length
    ∧ (FuzzyMatcher.filter score? "" items).map FuzzyMatch.index
        = List.range items.length
    ∧ (∀ fm ∈ FuzzyMatcher.filter score? "" items, fm.score = 0)
    ∧ ∀ score?' : String → String → Option Nat,
        FuzzyMatcher.filter score?' "" items = FuzzyMatcher.filter score? "" items := by
  have hfe : ∀ s : String → String → Option Nat, FuzzyMatcher.filter s "" items
      = items.enum.map (fun ie => { index := ie.1, score := 0 }) := by
    intro s
    have h : "".isEmpty = true := rfl
    rw [FuzzyMatcher.filter, if_pos h]
  refine ⟨?_, ?_, ?_, ?_⟩
  · rw [hfe, List.length_map, List.enum_length]
  · rw [hfe, List.map_map]
    have hcomp : (FuzzyMatch.index ∘ fun ie : Nat × String => FuzzyMatch.mk ie.1 0)
        = Prod.fst := rfl
    rw [hcomp, List.enum_map_fst]
  · intro fm hfm
    rw [hfe, List.mem_map] at hfm
    obtain ⟨ie, _, rfl⟩ := hfm
    rfl
  · intro score?'
    rw [hfe, hfe]

/-- The order produced by the stable descending sort: strictly larger score
first, ties broken by the original candidate index. -/
def fmR (a b : FuzzyMatch) : Prop :=
  b.score < a.score ∨ (b.score = a.score ∧ a.index < b.index)

theorem mem_insertByScoreDesc {z x : FuzzyMatch} {l : List FuzzyMatch} :
    z ∈ insertByScoreDesc x l ↔ z = x ∨ z ∈ l := by
  induction l with
  | nil => simp [insertByScoreDesc]
  | cons y ys ih =>
    by_cases h : y.score < x.score
    · simp [insertByScoreDesc, h]
    · simp only [insertByScoreDesc, if_neg h, List.mem_cons, ih]
      tauto

theorem pairwise_insertByScoreDesc {x : FuzzyMatch} {l : List FuzzyMatch}
    (hl : l.Pairwise fmR) (hidx : ∀ y ∈ l, y.index < x.index) :
    (insertByScoreDesc x l).Pairwise fmR := by
  induction l with
  | nil => simp [insertByScoreDesc]
  | cons y ys ih =>
    rw [List.pairwise_cons] at hl
    obtain ⟨hy, hys⟩ := hl
    by_cases h : y.score < x.score
    · rw [insertByScoreDesc, if_pos h]
      refine List.Pairwise.cons ?_ (List.Pairwise.cons hy hys)
      intro z hz
      rcases List.mem_cons.mp hz with rfl | hz'
      · exact Or.inl h
      · have := hy z hz'
        rcases this with hlt | ⟨heq, _⟩
        · exact Or.inl (lt_trans hlt h)
        · exact Or.inl (heq ▸ h)
    · rw [insertByScoreDesc, if_neg h]
      refine List.Pairwise.cons ?_ (ih hys (fun z hz => hidx z (List.mem_cons_of_mem y hz)))
      intro z hz
      rcases mem_insertByScoreDesc.mp hz with rfl | hz'
      · rcases Nat.lt_or_ge z.score y.score with hlt | hge
        · exact Or.inl hlt
        · have heq : z.score = y.score := Nat.le_antisymm (Nat.not_lt.mp h) hge
          exact Or.inr ⟨heq, hidx y (List.mem_cons_self y ys)⟩
      · exact hy z hz'

theorem mem_sortByScoreDesc_aux {z : FuzzyMatch} (l : List FuzzyMatch) (acc : List FuzzyMatch) :
    z ∈ l.foldl (fun acc x => insertByScoreDesc x acc) acc ↔ z ∈ acc ∨ z ∈ l := by
  induction l generalizing acc with
  | nil => simp
  | cons x xs ih =>
    rw [List.foldl_cons, ih]
    simp only [mem_insertByScoreDesc, List.mem_cons]
    tauto

theorem mem_sortByScoreDesc {z : FuzzyMatch} {l : List FuzzyMatch} :
    z ∈ sortByScoreDesc l ↔ z ∈ l := by
  rw [sortByScoreDesc, mem_sortByScoreDesc_aux]
  simp

theorem pairwise_sortByScoreDesc_aux (l : List FuzzyMatch) (acc : List FuzzyMatch)
    (hacc : acc.Pairwise fmR)
    (hcross : ∀ y ∈ acc, ∀ x ∈ l, y.index < x.index)
    (hl : l.Pairwise (fun a b => a.index < b.index)) :
    (l.foldl (fun acc x => insertByScoreDesc x acc) acc).Pairwise fmR := by
  induction l generalizing acc with
  | nil => exact hacc
  | cons x xs ih =>
    rw [List.pairwise_cons] at hl
    rw [List.foldl_cons]
    refine ih _ ?_ ?_ hl.2
    · exact pairwise_insertByScoreDesc hacc (fun y hy => hcross y hy x (List.mem_cons_self x xs))
    · intro y hy z hz
      rcases mem_insertByScoreDesc.mp hy with rfl | hy'
      · exact hl.1 z hz
      · exact hcross y hy' z (List.mem_cons_of_mem x hz)

theorem pairwise_sortByScoreDesc {l : List FuzzyMatch}
    (hl : l.Pairwise (fun a b => a.index < b.index)) :
    (sortByScoreDesc l).Pairwise fmR :=
  pairwise_sortByScoreDesc_aux l [] (List.Pairwise.nil) (by simp) hl

/-- C5: for a non-empty query, a candidate on which the scorer yields no score
(the query's characters do not occur in the candidate in order) is excluded
from the result entirely, and the result is sorted descending by score with
the deterministic tie-break of original candidate order. -/
theorem fuzzy_filter_nonmatch_sorted (score? : String → String → Option Nat)
    (query : String) (items : List String) (hq : query ≠ "") :
    (∀ i item, items[i]? = some item → score? query item = none →
        ∀ fm ∈ FuzzyMatcher.filter score? query items, fm.index ≠ i)
    ∧ (FuzzyMatcher.filter score? query items).Pairwise fmR := by
  have hne : query.isEmpty = false := by
    rcases h : query.isEmpty with _ | _
    · rfl
    · exact absurd ((String.isEmpty_iff query).mp h) hq
  have hfil : FuzzyMatcher.filter score? query items
      = sortByScoreDesc (items.enum.filterMap (fun ie =>
          (score? query ie.2).map (fun s => { index := ie.1, score := s }))) := by
    rw [FuzzyMatcher.filter, if_neg (by simp [hne])]
  constructor
  · intro i item hget hnone fm hfm hidx
    rw [hfil, mem_sortByScoreDesc, List.mem_filterMap] at hfm
    obtain ⟨ie, hie, hsc⟩ := hfm
    rcases h : score? query ie.2 with _ | s
    · rw [h] at hsc
      simp at hsc
    · rw [h] at hsc
      rw [show Option.map (fun s => FuzzyMatch.mk ie.1 s) (some s)
            = some (FuzzyMatch.mk ie.1 s) from rfl, Option.some.injEq] at hsc
      have hfst : ie.1 = i := by rw [← hidx, ← hsc]
      have hget2 : items[ie.1]? = some ie.2 := List.mem_enum_iff_getElem?.mp hie
      rw [hfst, hget] at hget2
      have : ie.2 = item := by injection hget2 with h2; exact h2.symm
      rw [this, hnone] at h
      exact Option.noConfusion h
  · rw [hfil]
    refine pairwise_sortByScoreDesc ?_
    rw [List.pairwise_filterMap]
    have henum : List.Pairwise (fun a b : Nat × String => a.1 < b.1) items.enum := by
      have := List.pairwise_lt_range items.length
      rw [← List.enum_map_fst items, List.pairwise_map] at this
      exact this
    refine henum.imp ?_
    intro a b hab x hx y hy
    rcases ha : score? query a.2 with _ | s
    · rw [ha] at hx; exact absurd hx (by simp)
    · rcases hb : score? query b.2 with _ | t
      · rw [hb] at hy; exact absurd hy (by simp)
      · rw [ha] at hx; rw [hb] at hy
        rw [show Option.map (fun u => FuzzyMatch.mk a.1 u) (some s)
              = some (FuzzyMatch.mk a.1 s) from rfl, Option.mem_some_iff] at hx
        rw [show Option.map (fun u => FuzzyMatch.mk b.1 u) (some t)
              = some (FuzzyMatch.mk b.1 t) from rfl, Option.mem_some_iff] at hy
        rw [← hx, ← hy]
        exact hab

theorem fuzzy_filter_nonmatch_sorted_witness :
    (∀ i item, (["b"] : List String)[i]? = some item →
        (fun _ _ => (none : Option Nat)) "a" item = none →
        ∀ fm ∈ FuzzyMatcher.filter (fun _ _ => none) "a" ["b"], fm.index ≠ i)
    ∧ (FuzzyMatcher.filter (fun _ _ => none) "a" ["b"]).Pairwise fmR :=
  fuzzy_filter_nonmatch_sorted (fun _ _ => none) "a" ["b"] (by decide)

/-! ## Detection engine core (`src/core/detect.rs`)

`detect_project(path)` and `is_project(path)` only ever test existence of a
single name directly under `path` (`path.join(marker).exists()`), so the
filesystem boundary is embedded as a predicate `ex : String → Bool` giving
existence of a directory entry of that name under the path in question. -/

/-- Embeds `enum VcsType`. -/
inductive VcsType where
  | Git
deriving DecidableEq, Repr

/-- Embeds `enum BuildSystem`. -/
inductive BuildSystem where
  | Cargo
  | Npm
  | CMake
  | Go
  | Python
  | Zig
  | Make
  | Gradle
  | Maven
  | Meson
deriving DecidableEq, Repr

/-- Embeds `struct BuildSystemInfo`. -/
structure BuildSystemInfo where
  marker : String
  system : BuildSystem
  artifact_dirs : List String

/-- Embeds the static `BUILD_SYSTEMS` marker table. -/
def BUILD_SYSTEMS : List BuildSystemInfo :=
  [ { marker := "Cargo.toml", system := .Cargo, artifact_dirs := ["target"] },
    { marker := "package.json", system := .Npm, artifact_dirs := ["node_modules", "dist", "build"] },
    { marker := "CMakeLists.txt", system := .CMake, artifact_dirs := ["build"] },
    { marker := "go.mod", system := .Go, artifact_dirs := [] },
    { marker := "pyproject.toml", system := .Python, artifact_dirs := ["__pycache__", ".venv", "dist"] },
    { marker := "build.zig", system := .Zig, artifact_dirs := ["zig-out", "zig-cache"] },
    { marker := "Makefile", system := .Make, artifact_dirs := [] },
    { marker := "build.gradle", system := .Gradle, artifact_dirs := ["build", ".gradle"] },
    { marker := "build.gradle.kts", system := .Gradle, artifact_dirs := ["build", ".gradle"] },
    { marker := "pom.xml", system := .Maven, artifact_dirs := ["target"] },
    { marker := "meson.build", system := .Meson, artifact_dirs := ["builddir"] } ]

/-- Embeds the `ARTIFACT_DIR_NAMES` constant. -/
def ARTIFACT_DIR_NAMES : List String :=
  ["target", "node_modules", "dist", "build", "__pycache__", ".venv",
   "zig-out", "zig-cache", ".gradle", "builddir", ".git"]

/-- Embeds `struct DetectionResult`. -/
structure DetectionResult where
  vcs : List VcsType
  build_systems : List BuildSystem
  artifact_dirs : List String
deriving DecidableEq, Repr

/-- The body of `detect_project`'s marker loop for one `BuildSystemInfo`
entry: push the build system if not already present, then union in the
artifact directory names. -/
def detectStep (ex : String → Bool) (acc : List BuildSystem × List String)
    (info : BuildSystemInfo) : List BuildSystem × List String :=
  if ex info.marker then
    (if info.system ∈ acc.1 then acc.1 else acc.1 ++ [info.system],
     info.artifact_dirs.foldl (fun a d => if d ∈ a then a else a ++ [d]) acc.2)
  else acc

/-- Embeds `detect_project`. -/
def detect_project (ex : String → Bool) : DetectionResult :=
  let vcs := if ex ".git" then [VcsType.Git] else []
  let bs := BUILD_SYSTEMS.foldl (detectStep ex) ([], [])
  { vcs := vcs, build_systems := bs.1, artifact_dirs := bs.2 }

/-- Embeds `is_project`. -/
def is_project (ex : String → Bool) : Bool :=
  ex ".git" || BUILD_SYSTEMS.any (fun info => ex info.marker)

/-! ## Registry (`crates/prj-core/src/project.rs`)

Mutating methods on `ProjectDatabase` take `&mut self` and return a
`Result`; they are embedded as functions returning the post-state of the
database together with an `Except` result, so "leaves the database
unchanged" is an actual statement about the returned state. -/

/-- Embeds `struct Project`. The `added_at` timestamp is an opaque value
supplied by the caller (`Utc::now()` is an external effect). -/
structure Project where
  name : String
  path : List String
  vcs : List VcsType
  build_systems : List BuildSystem
  artifact_dirs : List String
  added_at : Nat
  tags : List String
deriving DecidableEq, Repr

/-- Embeds `enum PrjError` (the variants used by the registry operations;
the persistence wrappers `DatabaseRead`/`DatabaseWrite` box live IO errors
and never arise from the pure operations embedded here). -/
inductive PrjError where
  | ProjectAlreadyExists (path : List String)
  | ProjectNotFound (name : String)
  | PathNotFound (path : List String)
  | NotADirectory (path : List String)
deriving DecidableEq, Repr

/-- Embeds `struct ProjectDatabase`. -/
structure ProjectDatabase where
  projects : List Project
deriving DecidableEq, Repr

/-- Embeds `ProjectDatabase::add`. -/
def ProjectDatabase.add (db : ProjectDatabase) (project : Project) :
    ProjectDatabase × Except PrjError Unit :=
  if db.projects.any (fun p => decide (p.path = project.path)) then
    (db, .error (.ProjectAlreadyExists project.path))
  else
    ({ projects := db.projects ++ [project] }, .ok ())

/-- The combination of `iter().position(|p| p.name == name)` and
`Vec::remove(idx)`: detach the first element with the given name. -/
def removeFirst (name : String) : List Project → Option (Project × List Project)
  | [] => none
  | p :: rest =>
    if p.name = name then some (p, rest)
    else (removeFirst name rest).map (fun pr => (pr.1, p :: pr.2))

/-- Embeds `ProjectDatabase::remove`. -/
def ProjectDatabase.remove (db : ProjectDatabase) (name : String) :
    ProjectDatabase × Except PrjError Project :=
  match removeFirst name db.projects with
  | none => (db, .error (.ProjectNotFound name))
  | some (p, rest) => ({ projects := rest }, .ok p)

/-- Embeds `ProjectDatabase::find`. -/
def ProjectDatabase.find (db : ProjectDatabase) (name : String) : Option Project :=
  db.projects.find? (fun p => decide (p.name = name))

/-- The effect of `find_mut` followed by an in-place update: apply `f` to the
first element with the given name, `none` when no element matches. -/
def modifyFirst (name : String) (f : Project → Project) :
    List Project → Option (List Project)
  | [] => none
  | p :: rest =>
    if p.name = name then some (f p :: rest)
    else (modifyFirst name f rest).map (fun l => p :: l)

/-- The tag-insertion loop of `add_tags`: push each tag not already present. -/
def addTagsLoop (tags : List String) (cur : List String) : List String :=
  tags.foldl (fun acc tag => if tag ∈ acc then acc else acc ++ [tag]) cur

/-- One insertion step of a stable ascending sort on strings: `x` goes after
every element less than or equal to it. -/
def insertStr (x : String) : List String → List String
  | [] => [x]
  | y :: ys => if x < y then x :: y :: ys else y :: insertStr x ys

/-- Embeds `Vec::<String>::sort()`: a stable sort under the total order on
strings, whose output (the sorted permutation, ties impossible since
equal-comparing strings are equal) is exactly that of this stable insertion
sort. -/
def sortStrings (l : List String) : List String :=
  l.foldl (fun acc x => insertStr x acc) []

/-- The per-record effect of `add_tags`: push each missing tag, then sort. -/
def applyAddTags (tags : List String) (p : Project) : Project :=
  { p with tags := sortStrings (addTagsLoop tags p.tags) }

/-- The per-record effect of `remove_tags`:
`retain(|t| !tags.contains(t))`. -/
def applyRemoveTags (tags : List String) (p : Project) : Project :=
  { p with tags := p.tags.filter (fun t => decide (t ∉ tags)) }

/-- Embeds `ProjectDatabase::add_tags`. -/
def ProjectDatabase.add_tags (db : ProjectDatabase) (name : String)
    (tags : List String) : ProjectDatabase × Except PrjError Unit :=
  match modifyFirst name (applyAddTags tags) db.projects with
  | none => (db, .error (.ProjectNotFound name))
  | some ps => ({ projects := ps }, .ok ())

/-- Embeds `ProjectDatabase::remove_tags`. -/
def ProjectDatabase.remove_tags (db : ProjectDatabase) (name : String)
    (tags : List String) : ProjectDatabase × Except PrjError Unit :=
  match modifyFirst name (applyRemoveTags tags) db.projects with
  | none => (db, .error (.ProjectNotFound name))
  | some ps => ({ projects := ps }, .ok ())

/-- Embeds `ProjectDatabase::find_orphaned`; `ex` is the filesystem's
`Path::exists` predicate at call time. -/
def ProjectDatabase.find_orphaned (db : ProjectDatabase)
    (ex : List String → Bool) : List Project :=
  db.projects.filter (fun p => !(ex p.path))

/-- Embeds `ProjectDatabase::remove_orphaned`
(`partition(|p| !p.path.exists())`, keep the alive partition). -/
def ProjectDatabase.remove_orphaned (db : ProjectDatabase)
    (ex : List String → Bool) : ProjectDatabase × List Project :=
  let parts := db.projects.partition (fun p => !(ex p.path))
  ({ projects := parts.2 }, parts.1)

/-- The filesystem boundary used by `register`: canonicalization, the
directory test, and entry existence under a path (used by detection). -/
structure FS where
  pathExists : List String → Bool
  canonicalize : List String → Option (List String)
  isDir : List String → Bool

/-- Embeds `ProjectDatabase::register`. The `now` argument stands for
`Utc::now()`. -/
def ProjectDatabase.register (db : ProjectDatabase) (fs : FS)
    (path : List String) (name : Option String) (now : Nat) :
    ProjectDatabase × Except PrjError Project :=
  match fs.canonicalize path with
  | none => (db, .error (.PathNotFound path))
  | some cpath =>
    if fs.isDir cpath then
      let detection := detect_project (fun m => fs.pathExists (cpath ++ [m]))
      let nm := match name with
        | some s => s
        | none =>
          match cpath.getLast? with
          | some n => n
          | none => "unknown"
      let project : Project :=
        { name := nm, path := cpath, vcs := detection.vcs,
          build_systems := detection.build_systems,
          artifact_dirs := detection.artifact_dirs,
          added_at := now, tags := [] }
      match db.add project with
      | (db', .ok _) => (db', .ok project)
      | (db', .error e) => (db', .error e)
    else (db, .error (.NotADirectory cpath))

/-- A whole session of `register` calls, each call's database state feeding
the next (a failed call leaves the state unchanged). -/
def registerSeq (fs : FS) (calls : List (List String × Option String))
    (db : ProjectDatabase) : ProjectDatabase :=
  calls.foldl (fun d c => (d.register fs c.1 c.2 0).1) db

/-- Distinctness of canonical paths across records. -/
def PathsDistinct (db : ProjectDatabase) : Prop :=
  db.projects.Pairwise (fun a b => a.path ≠ b.path)

theorem add_preserves_pathsDistinct (db : ProjectDatabase) (project : Project)
    (h : PathsDistinct db) : PathsDistinct (db.add project).1 := by
  rw [ProjectDatabase.add]
  by_cases hc : db.projects.any (fun p => decide (p.path = project.path)) = true
  · rw [if_pos hc]
    exact h
  · rw [if_neg hc]
    rw [PathsDistinct] at h ⊢
    rw [List.pairwise_append]
    refine ⟨h, List.pairwise_singleton _ _, ?_⟩
    intro a ha b hb
    rw [List.mem_singleton] at hb
    subst hb
    intro heq
    exact hc (List.any_eq_true.mpr ⟨a, ha, by simp [heq]⟩)

theorem register_preserves_pathsDistinct (db : ProjectDatabase) (fs : FS)
    (path : List String) (name : Option String) (now : Nat)
    (h : PathsDistinct db) : PathsDistinct (db.register fs path name now).1 := by
  rw [ProjectDatabase.register]
  split
  · exact h
  · split
    · have hstep : ∀ project : Project,
          PathsDistinct (match db.add project with
            | (db', Except.ok _) => (db', Except.ok project)
            | (db', Except.error e) => (db', Except.error e)).1 := by
        intro project
        have hadd := add_preserves_pathsDistinct db project h
        rcases he : ProjectDatabase.add db project with ⟨db', r⟩
        rw [he] at hadd
        rcases r with e | u
        · exact hadd
        · exact hadd
      exact hstep _
    · exact h

/-- C1: across any session of `register` calls no two records ever share a
canonical path, and a `register` whose resolved path equals an existing
record's path fails with `ProjectAlreadyExists` and returns the database
state exactly as it was. -/
theorem register_unique_paths :
    (∀ (fs : FS) (calls : List (List String × Option String)) (db : ProjectDatabase),
        PathsDistinct db → PathsDistinct (registerSeq fs calls db))
    ∧ (∀ (db : ProjectDatabase) (fs : FS) (path : List String)
         (name : Option String) (now : Nat) (cpath : List String),
        fs.canonicalize path = some cpath → fs.isDir cpath = true →
        (∃ p ∈ db.projects, p.path = cpath) →
        db.register fs path name now
          = (db, .error (.ProjectAlreadyExists cpath)))
    ∧ (∀ (db : ProjectDatabase) (r : Project),
        (∃ p ∈ db.projects, p.path = r.path) →
        db.add r = (db, .error (.ProjectAlreadyExists r.path))) := by
  refine ⟨?_, ?_, ?_⟩
  · intro fs calls
    induction calls with
    | nil => intro db h; exact h
    | cons c rest ih =>
      intro db h
      rw [registerSeq, List.foldl_cons]
      exact ih _ (register_preserves_pathsDistinct db fs c.1 c.2 0 h)
  · intro db fs path name now cpath hcanon hdir hex
    have hany : db.projects.any (fun p => decide (p.path = cpath)) = true := by
      obtain ⟨p, hp, hpath⟩ := hex
      exact List.any_eq_true.mpr ⟨p, hp, by simp [hpath]⟩
    simp only [ProjectDatabase.register, hcanon, hdir, if_true,
      ProjectDatabase.add, hany, ite_true]
  · intro db r hex
    have hany : db.projects.any (fun p => decide (p.path = r.path)) = true := by
      obtain ⟨p, hp, hpath⟩ := hex
      exact List.any_eq_true.mpr ⟨p, hp, by simp [hpath]⟩
    rw [ProjectDatabase.add, if_pos hany]

/-- A trivial filesystem for concrete checks: every path canonicalizes to
itself, every path is a directory, no directory entries exist. -/
def fsW : FS :=
  { pathExists := fun _ => false,
    canonicalize := fun p => some p,
    isDir := fun _ => true }

/-- A concrete record used by witnesses. -/
def projW : Project :=
  { name := "a", path := ["r", "a"], vcs := [], build_systems := [],
    artifact_dirs := [], added_at := 0, tags := [] }

/-- A concrete one-record database used by witnesses. -/
def dbW : ProjectDatabase := { projects := [projW] }

theorem register_unique_paths_witness :
    PathsDistinct (registerSeq fsW [(["r", "a"], none)] { projects := [] })
    ∧ dbW.register fsW ["r", "a"] none 0
        = (dbW, .error (.ProjectAlreadyExists ["r", "a"])) :=
  ⟨register_unique_paths.1 fsW [(["r", "a"], none)] { projects := [] }
      (List.Pairwise.nil),
   register_unique_paths.2.1 dbW fsW ["r", "a"] none 0 ["r", "a"] rfl rfl
      ⟨projW, by simp [dbW], rfl⟩⟩

/-! Helper lemmas: behaviour of the first-match operations on a list
decomposed around the first record carrying the searched name. -/

theorem removeFirst_not_found (name : String) (l : List Project)
    (h : ∀ p ∈ l, p.name ≠ name) : removeFirst name l = none := by
  induction l with
  | nil => rfl
  | cons p rest ih =>
    rw [removeFirst, if_neg (h p (List.mem_cons_self p rest)),
      ih (fun q hq => h q (List.mem_cons_of_mem p hq))]
    rfl

theorem removeFirst_found (name : String) (pre : List Project) (p : Project)
    (post : List Project) (hpre : ∀ q ∈ pre, q.name ≠ name) (hp : p.name = name) :
    removeFirst name (pre ++ p :: post) = some (p, pre ++ post) := by
  induction pre with
  | nil => simp [removeFirst, hp]
  | cons q rest ih =>
    rw [List.cons_append, removeFirst,
      if_neg (hpre q (List.mem_cons_self q rest)),
      ih (fun r hr => hpre r (List.mem_cons_of_mem q hr))]
    rfl

theorem modifyFirst_not_found (name : String) (f : Project → Project)
    (l : List Project) (h : ∀ p ∈ l, p.name ≠ name) :
    modifyFirst name f l = none := by
  induction l with
  | nil => rfl
  | cons p rest ih =>
    rw [modifyFirst, if_neg (h p (List.mem_cons_self p rest)),
      ih (fun q hq => h q (List.mem_cons_of_mem p hq))]
    rfl

theorem modifyFirst_found (name : String) (f : Project → Project)
    (pre : List Project) (p : Project) (post : List Project)
    (hpre : ∀ q ∈ pre, q.name ≠ name) (hp : p.name = name) :
    modifyFirst name f (pre ++ p :: post) = some (pre ++ f p :: post) := by
  induction pre with
  | nil => simp [modifyFirst, hp]
  | cons q rest ih =>
    rw [List.cons_append, modifyFirst,
      if_neg (hpre q (List.mem_cons_self q rest)),
      ih (fun r hr => hpre r (List.mem_cons_of_mem q hr))]
    rfl

theorem find?_first (name : String) (pre : List Project) (p : Project)
    (post : List Project) (hpre : ∀ q ∈ pre, q.name ≠ name) (hp : p.name = name) :
    (pre ++ p :: post).find? (fun q => decide (q.name = name)) = some p := by
  induction pre with
  | nil => simp [List.find?_cons, hp]
  | cons q rest ih =>
    rw [List.cons_append, List.find?_cons]
    have hq : decide (q.name = name) = false := by
      simp [hpre q (List.mem_cons_self q rest)]
    rw [hq]
    exact ih (fun r hr => hpre r (List.mem_cons_of_mem q hr))

theorem removeFirst_eq_some (name : String) (l : List Project) (p : Project)
    (rest : List Project) (h : removeFirst name l = some (p, rest)) :
    ∃ pre post, l = pre ++ p :: post ∧ (∀ q ∈ pre, q.name ≠ name)
      ∧ p.name = name ∧ rest = pre ++ post := by
  induction l generalizing p rest with
  | nil => exact absurd h (by simp [removeFirst])
  | cons q l' ih =>
    rw [removeFirst] at h
    by_cases hq : q.name = name
    · rw [if_pos hq] at h
      injection h with h'
      injection h' with h1 h2
      subst h1; subst h2
      exact ⟨[], l', rfl, by simp, hq, rfl⟩
    · rw [if_neg hq] at h
      rcases hr : removeFirst name l' with _ | pr
      · rw [hr] at h
        exact absurd h (by simp)
      · rw [hr] at h
        rcases pr with ⟨p', rest'⟩
        simp only [Option.map_some'] at h
        injection h with h'
        injection h' with h1 h2
        subst h1
        obtain ⟨pre, post, hl, hpre, hp, hrest⟩ := ih p' rest' hr
        refine ⟨q :: pre, post, by rw [hl, List.cons_append], ?_, hp, ?_⟩
        · intro r hr'
          rcases List.mem_cons.mp hr' with rfl | hr''
          · exact hq
          · exact hpre r hr''
        · rw [← h2, hrest, List.cons_append]

theorem modifyFirst_eq_some (name : String) (f : Project → Project)
    (l : List Project) (out : List Project) (h : modifyFirst name f l = some out) :
    ∃ pre p post, l = pre ++ p :: post ∧ (∀ q ∈ pre, q.name ≠ name)
      ∧ p.name = name ∧ out = pre ++ f p :: post := by
  induction l generalizing out with
  | nil => exact absurd h (by simp [modifyFirst])
  | cons q l' ih =>
    rw [modifyFirst] at h
    by_cases hq : q.name = name
    · rw [if_pos hq] at h
      injection h with h'
      exact ⟨[], q, l', rfl, by simp, hq, h'.symm⟩
    · rw [if_neg hq] at h
      rcases hr : modifyFirst name f l' with _ | out'
      · rw [hr] at h
        exact absurd h (by simp)
      · rw [hr] at h
        simp only [Option.map_some'] at h
        injection h with h'
        obtain ⟨pre, p, post, hl, hpre, hp, hout⟩ := ih out' hr
        refine ⟨q :: pre, p, post, by rw [hl, List.cons_append], ?_, hp, ?_⟩
        · intro r hr'
          rcases List.mem_cons.mp hr' with rfl | hr''
          · exact hq
          · exact hpre r hr''
        · rw [← h', hout, List.cons_append]

theorem mem_insertStr {z x : String} {l : List String} :
    z ∈ insertStr x l ↔ z = x ∨ z ∈ l := by
  induction l with
  | nil => simp [insertStr]
  | cons y ys ih =>
    by_cases h : x < y
    · simp [insertStr, h]
    · simp only [insertStr, if_neg h, List.mem_cons, ih]
      tauto

theorem sorted_insertStr {x : String} {l : List String}
    (hl : l.Sorted (· ≤ ·)) : (insertStr x l).Sorted (· ≤ ·) := by
  induction l with
  | nil => simp [insertStr, List.Sorted]
  | cons y ys ih =>
    rw [List.Sorted, List.pairwise_cons] at hl
    obtain ⟨hy, hys⟩ := hl
    by_cases h : x < y
    · rw [insertStr, if_pos h]
      refine List.Pairwise.cons ?_ (List.Pairwise.cons hy hys)
      intro z hz
      rcases List.mem_cons.mp hz with rfl | hz'
      · exact le_of_lt h
      · exact le_trans (le_of_lt h) (hy z hz')
    · rw [insertStr, if_neg h]
      refine List.Pairwise.cons ?_ (ih hys)
      intro z hz
      rcases mem_insertStr.mp hz with rfl | hz'
      · exact not_lt.mp h
      · exact hy z hz'

theorem sorted_sortStrings_aux (l acc : List String) (hacc : acc.Sorted (· ≤ ·)) :
    (l.foldl (fun acc x => insertStr x acc) acc).Sorted (· ≤ ·) := by
  induction l generalizing acc with
  | nil => exact hacc
  | cons x xs ih => exact ih _ (sorted_insertStr hacc)

theorem sorted_sortStrings (l : List String) : (sortStrings l).Sorted (· ≤ ·) :=
  sorted_sortStrings_aux l [] (by simp [List.Sorted])

theorem insertStr_of_le {x : String} {l : List String}
    (h : ∀ y ∈ l, y ≤ x) : insertStr x l = l ++ [x] := by
  induction l with
  | nil => rfl
  | cons y ys ih =>
    rw [insertStr, if_neg (not_lt.mpr (h y (List.mem_cons_self y ys))),
      ih (fun z hz => h z (List.mem_cons_of_mem y hz)), List.cons_append]

theorem sortStrings_of_sorted_aux (l acc : List String)
    (h : (acc ++ l).Sorted (· ≤ ·)) :
    l.foldl (fun acc x => insertStr x acc) acc = acc ++ l := by
  induction l generalizing acc with
  | nil => simp
  | cons x xs ih =>
    have hcross : ∀ y ∈ acc, y ≤ x := by
      rw [List.Sorted, List.pairwise_append] at h
      exact fun y hy => h.2.2 y hy x (List.mem_cons_self x xs)
    rw [List.foldl_cons, insertStr_of_le hcross]
    have hassoc : acc ++ [x] ++ xs = acc ++ x :: xs := by
      rw [List.append_assoc, List.singleton_append]
    rw [ih (acc ++ [x]) (by rw [hassoc]; exact h), hassoc]

theorem sortStrings_of_sorted {l : List String} (h : l.Sorted (· ≤ ·)) :
    sortStrings l = l :=
  sortStrings_of_sorted_aux l [] (by simpa using h)

theorem mem_sortStrings_aux {z : String} (l acc : List String) :
    z ∈ l.foldl (fun acc x => insertStr x acc) acc ↔ z ∈ acc ∨ z ∈ l := by
  induction l generalizing acc with
  | nil => simp
  | cons x xs ih =>
    rw [List.foldl_cons, ih]
    simp only [mem_insertStr, List.mem_cons]
    tauto

theorem mem_sortStrings {z : String} {l : List String} :
    z ∈ sortStrings l ↔ z ∈ l := by
  rw [sortStrings, mem_sortStrings_aux]
  simp

theorem mem_addTagsLoop {t : String} (tags cur : List String) :
    t ∈ addTagsLoop tags cur ↔ t ∈ cur ∨ t ∈ tags := by
  induction tags generalizing cur with
  | nil => simp [addTagsLoop]
  | cons tag rest ih =>
    rw [addTagsLoop, List.foldl_cons]
    rw [show List.foldl (fun acc tag => if tag ∈ acc then acc else acc ++ [tag])
          (if tag ∈ cur then cur else cur ++ [tag]) rest
        = addTagsLoop rest (if tag ∈ cur then cur else cur ++ [tag]) from rfl, ih]
    by_cases h : tag ∈ cur
    · rw [if_pos h]
      simp only [List.mem_cons]
      constructor
      · rintro (hc | hr)
        · exact Or.inl hc
        · exact Or.inr (Or.inr hr)
      · rintro (hc | rfl | hr)
        · exact Or.inl hc
        · exact Or.inl h
        · exact Or.inr hr
    · rw [if_neg h]
      simp only [List.mem_append, List.mem_singleton, List.mem_cons]
      tauto

theorem addTagsLoop_of_subset {tags cur : List String}
    (h : ∀ t ∈ tags, t ∈ cur) : addTagsLoop tags cur = cur := by
  induction tags with
  | nil => rfl
  | cons tag rest ih =>
    rw [addTagsLoop, List.foldl_cons, if_pos (h tag (List.mem_cons_self tag rest))]
    exact ih (fun t ht => h t (List.mem_cons_of_mem tag ht))

/-- C7: `remove` fails with `ProjectNotFound` when the name is absent and
otherwise detaches and returns exactly the first record with that name,
keeping every surviving record in its original relative order; both the
survivors and the removed records of `remove_orphaned` are sublists of the
original sequence (no reordering). -/
theorem remove_order_preserving :
    (∀ (db : ProjectDatabase) (name : String),
        (∀ p ∈ db.projects, p.name ≠ name) →
        db.remove name = (db, .error (.ProjectNotFound name)))
    ∧ (∀ (db db' : ProjectDatabase) (name : String) (p : Project),
        db.remove name = (db', .ok p) →
        ∃ pre post, db.projects = pre ++ p :: post
          ∧ (∀ q ∈ pre, q.name ≠ name) ∧ p.name = name
          ∧ db'.projects = pre ++ post)
    ∧ (∀ (db : ProjectDatabase) (ex : List String → Bool),
        ((db.remove_orphaned ex).1.projects).Sublist db.projects
        ∧ ((db.remove_orphaned ex).2).Sublist db.projects) := by
  refine ⟨?_, ?_, ?_⟩
  · intro db name h
    rw [ProjectDatabase.remove, removeFirst_not_found name db.projects h]
  · intro db db' name p h
    rw [ProjectDatabase.remove] at h
    rcases hr : removeFirst name db.projects with _ | pr
    · rw [hr] at h
      exact absurd h (by simp)
    · rw [hr] at h
      rcases pr with ⟨q, rest⟩
      injection h with h1 h2
      injection h2 with h2
      subst h2
      obtain ⟨pre, post, hl, hpre, hp, hrest⟩ := removeFirst_eq_some name db.projects q rest hr
      exact ⟨pre, post, hl, hpre, hp, by rw [← h1, hrest]⟩
  · intro db ex
    constructor
    · rw [ProjectDatabase.remove_orphaned]
      simp only [List.partition_eq_filter_filter]
      exact List.filter_sublist db.projects
    · rw [ProjectDatabase.remove_orphaned]
      simp only [List.partition_eq_filter_filter]
      exact List.filter_sublist db.projects

theorem remove_order_preserving_witness :
    dbW.remove "zzz" = (dbW, .error (.ProjectNotFound "zzz"))
    ∧ ∃ pre post, dbW.projects = pre ++ projW :: post
        ∧ (∀ q ∈ pre, q.name ≠ "a") ∧ projW.name = "a"
        ∧ ({ projects := [] } : ProjectDatabase).projects = pre ++ post :=
  ⟨remove_order_preserving.1 dbW "zzz" (by decide),
   remove_order_preserving.2.1 dbW { projects := [] } "a" projW rfl⟩

theorem applyAddTags_name (tags : List String) (p : Project) :
    (applyAddTags tags p).name = p.name := rfl

theorem applyAddTags_idem (tags : List String) (p : Project) :
    applyAddTags tags (applyAddTags tags p) = applyAddTags tags p := by
  have hsub : ∀ t ∈ tags, t ∈ sortStrings (addTagsLoop tags p.tags) :=
    fun t ht => mem_sortStrings.mpr ((mem_addTagsLoop tags p.tags).mpr (Or.inr ht))
  show { p with tags := sortStrings (addTagsLoop tags (sortStrings (addTagsLoop tags p.tags))) }
      = { p with tags := sortStrings (addTagsLoop tags p.tags) }
  rw [addTagsLoop_of_subset hsub, sortStrings_of_sorted (sorted_sortStrings _)]

/-- C6: a successful `add_tags` is an idempotent set-union (repeating it with
the same tags changes nothing, and membership in the new tag set is exactly
membership in the old set or in the given tags) leaving the record's tag set
sorted; `remove_tags` is set-difference; both fail with `ProjectNotFound`
when no record carries the name. -/
theorem tags_union_difference :
    (∀ (db db' : ProjectDatabase) (name : String) (tags : List String),
        db.add_tags name tags = (db', .ok ()) →
        db'.add_tags name tags = (db', .ok ())
        ∧ ∃ p, db'.find name = some p ∧ p.tags.Sorted (· ≤ ·)
            ∧ ∀ p0, db.find name = some p0 →
                ∀ t, t ∈ p.tags ↔ t ∈ p0.tags ∨ t ∈ tags)
    ∧ (∀ (db db' : ProjectDatabase) (name : String) (tags : List String)
         (p p' : Project),
        db.remove_tags name tags = (db', .ok ()) →
        db.find name = some p → db'.find name = some p' →
        ∀ t, t ∈ p'.tags ↔ t ∈ p.tags ∧ t ∉ tags)
    ∧ (∀ (db : ProjectDatabase) (name : String) (tags : List String),
        (∀ p ∈ db.projects, p.name ≠ name) →
        db.add_tags name tags = (db, .error (.ProjectNotFound name))
        ∧ db.remove_tags name tags = (db, .error (.ProjectNotFound name))) := by
  refine ⟨?_, ?_, ?_⟩
  · intro db db' name tags h
    rw [ProjectDatabase.add_tags] at h
    rcases hm : modifyFirst name (applyAddTags tags) db.projects with _ | ps
    · rw [hm] at h
      exact absurd h (by simp)
    · rw [hm] at h
      injection h with h1 h2
      obtain ⟨pre, p0, post, hl, hpre, hname, hout⟩ :=
        modifyFirst_eq_some name (applyAddTags tags) db.projects ps hm
      have hdb' : db'.projects = pre ++ applyAddTags tags p0 :: post := by
        rw [← h1, hout]
      have hname' : (applyAddTags tags p0).name = name := by
        rw [applyAddTags_name, hname]
      refine ⟨?_, ?_⟩
      · rw [ProjectDatabase.add_tags, hdb',
          modifyFirst_found name (applyAddTags tags) pre (applyAddTags tags p0) post hpre hname',
          applyAddTags_idem]
        rw [Prod.mk.injEq]
        constructor
        · rw [← h1, hout]
        · rfl
      · refine ⟨applyAddTags tags p0, ?_, ?_, ?_⟩
        · rw [ProjectDatabase.find, hdb']
          exact find?_first name pre (applyAddTags tags p0) post hpre hname'
        · exact sorted_sortStrings _
        · intro q0 hq0
          rw [ProjectDatabase.find, hl,
            find?_first name pre p0 post hpre hname, Option.some.injEq] at hq0
          subst hq0
          intro t
          show t ∈ sortStrings (addTagsLoop tags p0.tags) ↔ t ∈ p0.tags ∨ t ∈ tags
          rw [mem_sortStrings, mem_addTagsLoop]
  · intro db db' name tags p p' h hp hp'
    rw [ProjectDatabase.remove_tags] at h
    rcases hm : modifyFirst name (applyRemoveTags tags) db.projects with _ | ps
    · rw [hm] at h
      exact absurd h (by simp)
    · rw [hm] at h
      injection h with h1 h2
      obtain ⟨pre, p0, post, hl, hpre, hname, hout⟩ :=
        modifyFirst_eq_some name (applyRemoveTags tags) db.projects ps hm
      have hname' : (applyRemoveTags tags p0).name = name := hname
      rw [ProjectDatabase.find, hl,
        find?_first name pre p0 post hpre hname, Option.some.injEq] at hp
      have hdb' : db'.projects = pre ++ applyRemoveTags tags p0 :: post := by
        rw [← h1, hout]
      rw [ProjectDatabase.find, hdb',
        find?_first name pre (applyRemoveTags tags p0) post hpre hname',
        Option.some.injEq] at hp'
      intro t
      rw [← hp, ← hp']
      show t ∈ p0.tags.filter (fun t => decide (t ∉ tags)) ↔ t ∈ p0.tags ∧ t ∉ tags
      rw [List.mem_filter, decide_eq_true_eq]
  · intro db name tags h
    constructor
    · rw [ProjectDatabase.add_tags, modifyFirst_not_found name (applyAddTags tags) db.projects h]
    · rw [ProjectDatabase.remove_tags, modifyFirst_not_found name (applyRemoveTags tags) db.projects h]

/-- The concrete record `projW` after `add_tags` with `["x"]`. -/
def projWx : Project := { projW with tags := ["x"] }

/-- The concrete database `dbW` after `add_tags "a" ["x"]`. -/
def dbWx : ProjectDatabase := { projects := [projWx] }

theorem tags_union_difference_witness :
    (dbWx.add_tags "a" ["x"] = (dbWx, .ok ())
      ∧ ∃ p, dbWx.find "a" = some p ∧ p.tags.Sorted (· ≤ ·)
          ∧ ∀ p0, dbW.find "a" = some p0 →
              ∀ t, t ∈ p.tags ↔ t ∈ p0.tags ∨ t ∈ ["x"])
    ∧ (dbW.add_tags "zzz" ["x"] = (dbW, .error (.ProjectNotFound "zzz"))
      ∧ dbW.remove_tags "zzz" ["x"] = (dbW, .error (.ProjectNotFound "zzz"))) :=
  ⟨tags_union_difference.1 dbW dbWx "a" ["x"] rfl,
   tags_union_difference.2.2 dbW "zzz" ["x"] (by decide)⟩

/-- C10: with several records sharing a display name, `find`, `remove`,
`add_tags` and `remove_tags` all operate on the first record in insertion
order with that name and leave the later same-named record `q` untouched in
place (reachable by name only once the earlier one is removed); `add`
rejects a new record exactly when its path equals an existing record's path
as a value, so same-named records with distinct paths coexist. -/
theorem same_name_first_match (pre mid post : List Project) (p q : Project)
    (n : String) (hpre : ∀ x ∈ pre, x.name ≠ n) (hp : p.name = n) (hq : q.name = n) :
    (ProjectDatabase.mk (pre ++ p :: (mid ++ q :: post))).find n = some p
    ∧ (ProjectDatabase.mk (pre ++ p :: (mid ++ q :: post))).remove n
        = ({ projects := pre ++ (mid ++ q :: post) }, .ok p)
    ∧ (∀ tags, (ProjectDatabase.mk (pre ++ p :: (mid ++ q :: post))).add_tags n tags
        = ({ projects := pre ++ applyAddTags tags p :: (mid ++ q :: post) }, .ok ()))
    ∧ (∀ tags, (ProjectDatabase.mk (pre ++ p :: (mid ++ q :: post))).remove_tags n tags
        = ({ projects := pre ++ applyRemoveTags tags p :: (mid ++ q :: post) }, .ok ()))
    ∧ ((∀ x ∈ mid, x.name ≠ n) →
        (ProjectDatabase.mk (pre ++ (mid ++ q :: post))).find n = some q)
    ∧ (∀ r : Project,
        ((∀ s ∈ pre ++ p :: (mid ++ q :: post), s.path ≠ r.path) →
          (ProjectDatabase.mk (pre ++ p :: (mid ++ q :: post))).add r
            = ({ projects := (pre ++ p :: (mid ++ q :: post)) ++ [r] }, .ok ()))
        ∧ ((∃ s ∈ pre ++ p :: (mid ++ q :: post), s.path = r.path) →
          (ProjectDatabase.mk (pre ++ p :: (mid ++ q :: post))).add r
            = ({ projects := pre ++ p :: (mid ++ q :: post) },
               .error (.ProjectAlreadyExists r.path)))) := by
  refine ⟨?_, ?_, ?_, ?_, ?_, ?_⟩
  · exact find?_first n pre p (mid ++ q :: post) hpre hp
  · rw [ProjectDatabase.remove,
      removeFirst_found n pre p (mid ++ q :: post) hpre hp]
  · intro tags
    rw [ProjectDatabase.add_tags,
      modifyFirst_found n (applyAddTags tags) pre p (mid ++ q :: post) hpre hp]
  · intro tags
    rw [ProjectDatabase.remove_tags,
      modifyFirst_found n (applyRemoveTags tags) pre p (mid ++ q :: post) hpre hp]
  · intro hmid
    have hpre' : ∀ x ∈ pre ++ mid, x.name ≠ n := by
      intro x hx
      rcases List.mem_append.mp hx with h1 | h2
      · exact hpre x h1
      · exact hmid x h2
    have := find?_first n (pre ++ mid) q post hpre' hq
    rw [List.append_assoc] at this
    exact this
  · intro r
    constructor
    · intro hno
      rw [ProjectDatabase.add, if_neg]
      rw [List.any_eq_true]
      rintro ⟨s, hs, hsp⟩
      rw [decide_eq_true_eq] at hsp
      exact hno s hs hsp
    · intro hyes
      obtain ⟨s, hs, hsp⟩ := hyes
      rw [ProjectDatabase.add,
        if_pos (List.any_eq_true.mpr ⟨s, hs, by simp [hsp]⟩)]

/-- A record sharing `projW`'s name but with a distinct path. -/
def projW2 : Project := { projW with path := ["r", "b"] }

theorem same_name_first_match_witness :
    (ProjectDatabase.mk ([] ++ projW :: ([] ++ projW2 :: []))).find "a" = some projW
    ∧ (ProjectDatabase.mk ([] ++ projW :: ([] ++ projW2 :: []))).remove "a"
        = ({ projects := [] ++ ([] ++ projW2 :: []) }, .ok projW) :=
  ⟨(same_name_first_match [] [] [] projW projW2 "a" (by decide) rfl rfl).1,
   (same_name_first_match [] [] [] projW projW2 "a" (by decide) rfl rfl).2.1⟩

theorem nodup_pushNew {α : Type} [DecidableEq α] (l : List α) (x : α)
    (h : l.Nodup) : (if x ∈ l then l else l ++ [x]).Nodup := by
  by_cases hx : x ∈ l
  · rw [if_pos hx]
    exact h
  · rw [if_neg hx, ← List.concat_eq_append]
    exact List.Nodup.concat hx h

theorem fold_pushNew_nodup (ds : List String) (acc : List String)
    (h : acc.Nodup) :
    (ds.foldl (fun a d => if d ∈ a then a else a ++ [d]) acc).Nodup := by
  induction ds generalizing acc with
  | nil => exact h
  | cons d rest ih => exact ih _ (nodup_pushNew acc d h)

theorem detect_fold_nodup (ex : String → Bool) (infos : List BuildSystemInfo)
    (acc : List BuildSystem × List String) (h1 : acc.1.Nodup) (h2 : acc.2.Nodup) :
    (infos.foldl (detectStep ex) acc).1.Nodup
    ∧ (infos.foldl (detectStep ex) acc).2.Nodup := by
  induction infos generalizing acc with
  | nil => exact ⟨h1, h2⟩
  | cons info rest ih =>
    rw [List.foldl_cons]
    refine ih _ ?_ ?_
    · rw [detectStep]
      by_cases hm : ex info.marker = true
      · rw [if_pos hm]
        exact nodup_pushNew acc.1 info.system h1
      · rw [if_neg hm]
        exact h1
    · rw [detectStep]
      by_cases hm : ex info.marker = true
      · rw [if_pos hm]
        exact fold_pushNew_nodup info.artifact_dirs acc.2 h2
      · rw [if_neg hm]
        exact h2

theorem detect_fold_no_marker (ex : String → Bool) (infos : List BuildSystemInfo)
    (acc : List BuildSystem × List String)
    (h : ∀ info ∈ infos, ex info.marker = false) :
    infos.foldl (detectStep ex) acc = acc := by
  induction infos generalizing acc with
  | nil => rfl
  | cons info rest ih =>
    rw [List.foldl_cons, detectStep,
      if_neg (by rw [h info (List.mem_cons_self info rest)]; exact Bool.false_ne_true)]
    exact ih acc (fun i hi => h i (List.mem_cons_of_mem info hi))

/-- C8: `detect_project` records each build identity at most once and each
artifact directory name at most once (both result lists have no duplicates,
even when several markers map to the same identity), and a path with no VCS
marker and no build marker yields empty sets rather than an error. -/
theorem detect_project_dedup (ex : String → Bool) :
    (detect_project ex).build_systems.Nodup
    ∧ (detect_project ex).artifact_dirs.Nodup
    ∧ (ex ".git" = false →
        (∀ info ∈ BUILD_SYSTEMS, ex info.marker = false) →
        detect_project ex = { vcs := [], build_systems := [], artifact_dirs := [] }) := by
  have hnodup := detect_fold_nodup ex BUILD_SYSTEMS ([], []) List.nodup_nil List.nodup_nil
  refine ⟨hnodup.1, hnodup.2, ?_⟩
  intro hgit hmarkers
  rw [detect_project]
  rw [show (if ex ".git" = true then [VcsType.Git] else [])
        = [] from if_neg (by rw [hgit]; exact Bool.false_ne_true)]
  rw [detect_fold_no_marker ex BUILD_SYSTEMS ([], []) hmarkers]

/-- An entry-existence predicate where both Gradle marker variants are
present and nothing else. -/
def exGradleBoth : String → Bool :=
  fun m => m = "build.gradle" || m = "build.gradle.kts"

theorem detect_project_dedup_witness :
    (detect_project exGradleBoth).build_systems.Nodup
    ∧ (detect_project exGradleBoth).build_systems = [BuildSystem.Gradle]
    ∧ detect_project (fun _ => false)
        = { vcs := [], build_systems := [], artifact_dirs := [] } :=
  ⟨(detect_project_dedup exGradleBoth).1, by decide,
   (detect_project_dedup (fun _ => false)).2.2 rfl (by decide)⟩

/-! ## Scan engine (`src/core/detect.rs`, `scan_projects`)

The directory tree is modelled as a finite tree of named entries. The
`walkdir` iterator with `max_depth` and `filter_entry` is embedded as the
pre-order list of yielded `(path, entry)` pairs; the loop body over that
list is `scanStep`. Paths are component lists relative to the scan root. -/

/-- A directory tree entry: name, directory flag, children (empty for a
plain file). -/
inductive DirEntry where
  | mk (name : String) (isDir : Bool) (children : List DirEntry)

def DirEntry.name : DirEntry → String
  | .mk n _ _ => n

def DirEntry.isDir : DirEntry → Bool
  | .mk _ d _ => d

def DirEntry.children : DirEntry → List DirEntry
  | .mk _ _ cs => cs

/-- Existence of an entry of the given name directly under `e`
(`path.join(name).exists()` at the node `e`). -/
def childExists (e : DirEntry) (m : String) : Bool :=
  e.children.any (fun c => decide (c.name = m))

/-- `is_project` evaluated at a tree node. -/
def is_project_entry (e : DirEntry) : Bool :=
  is_project (childExists e)

/-- Embeds `name.starts_with('.')`: the first character is the hidden-file
marker. -/
def startsWithDot (s : String) : Bool :=
  match s.data with
  | [] => false
  | c :: _ => c = '.'

/-- Embeds the `filter_entry` closure of `scan_projects`: always allow the
root, then skip non-directories, artifact-named directories, and hidden
directories. -/
def filterEntry (e : DirEntry) (depth : Nat) : Bool :=
  if depth = 0 then true
  else if !e.isDir then false
  else if decide (e.name ∈ ARTIFACT_DIR_NAMES) then false
  else if startsWithDot e.name then false
  else true

mutual
/-- Pre-order sequence of `(path, entry)` pairs yielded by the bounded,
filtered `walkdir` traversal: the entry itself, then (when it may still be
descended into) the surviving children in order. -/
def walkEntries (maxD : Nat) : DirEntry → Nat → List String →
    List (List String × DirEntry)
  | .mk n d cs, depth, path =>
    (path, .mk n d cs)
      :: (if depth < maxD then walkChildren maxD cs depth path else [])

/-- The traversal below a list of sibling children at `depth` (children are
yielded at `depth + 1`); children rejected by `filter_entry` are pruned with
their whole subtree. -/
def walkChildren (maxD : Nat) : List DirEntry → Nat → List String →
    List (List String × DirEntry)
  | [], _, _ => []
  | c :: rest, depth, path =>
    (if filterEntry c (depth + 1) then
        walkEntries maxD c (depth + 1) (path ++ [c.name])
      else [])
      ++ walkChildren maxD rest depth path
end

/-- The body of the `for entry in walker` loop: skip non-directories, skip
strict descendants of an already-found project root, record a project root
in both the pruning set and the result (state is `(project_roots, found)`). -/
def scanStep (st : List (List String) × List (List String))
    (pe : List String × DirEntry) : List (List String) × List (List String) :=
  if !pe.2.isDir then st
  else if st.1.any (fun root => decide (root <+: pe.1) && !(decide (pe.1 = root))) then st
  else if is_project_entry pe.2 then (st.1 ++ [pe.1], st.2 ++ [pe.1])
  else st

/-- Embeds `scan_projects`: fold the loop body over the traversal sequence
and return the found paths in traversal order. -/
def scan_projects (root : DirEntry) (rootPath : List String) (maxD : Nat) :
    List (List String) :=
  ((walkEntries maxD root 0 rootPath).foldl scanStep ([], [])).2

/-- Sibling names are distinct (no real directory holds two equally named
entries). -/
def namesNodupb : List DirEntry → Bool
  | [] => true
  | c :: rest => !(rest.any (fun d => decide (d.name = c.name))) && namesNodupb rest

mutual
/-- Well-formedness of a tree as a filesystem snapshot: at every node the
children carry pairwise distinct names. -/
def dirWf : DirEntry → Bool
  | .mk _ _ cs => namesNodupb cs && dirWfList cs

def dirWfList : List DirEntry → Bool
  | [] => true
  | c :: rest => dirWf c && dirWfList rest
end

/-- Ordering constraint on the traversal sequence: a later entry's path is
never a strict prefix (strict ancestor) of an earlier entry's path. -/
def Rlater (a b : List String × DirEntry) : Prop :=
  b.1 <+: a.1 → b.1 = a.1

/-- Two found roots are never strict ancestors of one another. -/
def Incomp (a b : List String) : Prop :=
  (a <+: b → a = b) ∧ (b <+: a → b = a)

mutual
theorem walkEntries_extends (maxD : Nat) (e : DirEntry) (depth : Nat)
    (path : List String) :
    ∀ pe ∈ walkEntries maxD e depth path, path <+: pe.1 := by
  match e with
  | .mk n d cs =>
    intro pe hpe
    rw [walkEntries] at hpe
    rcases List.mem_cons.mp hpe with rfl | h2
    · exact List.prefix_rfl
    · by_cases hlt : depth < maxD
      · rw [if_pos hlt] at h2
        obtain ⟨c, _, _, hpre⟩ := walkChildren_extends maxD cs depth path pe h2
        exact (List.prefix_append path [c.name]).trans hpre
      · rw [if_neg hlt] at h2
        exact absurd h2 (List.not_mem_nil pe)

theorem walkChildren_extends (maxD : Nat) (cs : List DirEntry) (depth : Nat)
    (path : List String) :
    ∀ pe ∈ walkChildren maxD cs depth path,
      ∃ c ∈ cs, filterEntry c (depth + 1) = true ∧ (path ++ [c.name]) <+: pe.1 := by
  match cs with
  | [] =>
    intro pe hpe
    exact absurd hpe (List.not_mem_nil pe)
  | c :: rest =>
    intro pe hpe
    rw [walkChildren] at hpe
    rcases List.mem_append.mp hpe with h1 | h2
    · by_cases hf : filterEntry c (depth + 1) = true
      · rw [if_pos hf] at h1
        exact ⟨c, List.mem_cons_self c rest, hf,
          walkEntries_extends maxD c (depth + 1) (path ++ [c.name]) pe h1⟩
      · rw [if_neg hf] at h1
        exact absurd h1 (List.not_mem_nil pe)
    · obtain ⟨c', hc', hf', hpre'⟩ := walkChildren_extends maxD rest depth path pe h2
      exact ⟨c', List.mem_cons_of_mem c hc', hf', hpre'⟩
end

theorem prefix_branch_disjoint {path u v : List String} {x y : String}
    (hx : (path ++ [x]) <+: u) (hy : (path ++ [y]) <+: v) (hxy : x ≠ y) :
    ¬ u <+: v := by
  intro huv
  have hx' : (path ++ [x]) <+: v := hx.trans huv
  have hlen : (path ++ [x]).length = (path ++ [y]).length := by
    simp
  have heq : (path ++ [x]) = (path ++ [y]) :=
    (List.prefix_of_prefix_length_le hx' hy hlen.le).eq_of_length hlen
  have : ([x] : List String) = [y] := List.append_cancel_left heq
  exact hxy (by injection this)

mutual
theorem walkEntries_pairwise (maxD : Nat) (e : DirEntry) (depth : Nat)
    (path : List String) (hwf : dirWf e = true) :
    (walkEntries maxD e depth path).Pairwise Rlater := by
  match e with
  | .mk n d cs =>
    rw [dirWf, Bool.and_eq_true] at hwf
    rw [walkEntries]
    refine List.Pairwise.cons ?_ ?_
    · intro b hb
      dsimp only [Rlater]
      by_cases hlt : depth < maxD
      · rw [if_pos hlt] at hb
        obtain ⟨c, _, _, hpre⟩ := walkChildren_extends maxD cs depth path b hb
        intro hbp
        exfalso
        have habs := (hpre.trans hbp).length_le
        rw [List.length_append, List.length_singleton] at habs
        omega
      · rw [if_neg hlt] at hb
        exact absurd hb (List.not_mem_nil b)
    · by_cases hlt : depth < maxD
      · rw [if_pos hlt]
        exact walkChildren_pairwise maxD cs depth path hwf.1 hwf.2
      · rw [if_neg hlt]
        exact List.Pairwise.nil

theorem walkChildren_pairwise (maxD : Nat) (cs : List DirEntry) (depth : Nat)
    (path : List String) (hnodup : namesNodupb cs = true)
    (hwfl : dirWfList cs = true) :
    (walkChildren maxD cs depth path).Pairwise Rlater := by
  match cs with
  | [] => exact List.Pairwise.nil
  | c :: rest =>
    rw [namesNodupb, Bool.and_eq_true] at hnodup
    rw [dirWfList, Bool.and_eq_true] at hwfl
    rw [walkChildren, List.pairwise_append]
    refine ⟨?_, walkChildren_pairwise maxD rest depth path hnodup.2 hwfl.2, ?_⟩
    · by_cases hf : filterEntry c (depth + 1) = true
      · rw [if_pos hf]
        exact walkEntries_pairwise maxD c (depth + 1) (path ++ [c.name]) hwfl.1
      · rw [if_neg hf]
        exact List.Pairwise.nil
    · intro a ha b hb
      by_cases hf : filterEntry c (depth + 1) = true
      · rw [if_pos hf] at ha
        have hpa := walkEntries_extends maxD c (depth + 1) (path ++ [c.name]) a ha
        obtain ⟨c', hc', _, hpb⟩ := walkChildren_extends maxD rest depth path b hb
        have hne : c'.name ≠ c.name := by
          intro heq
          have hany : rest.any (fun e => decide (e.name = c.name)) = true :=
            List.any_eq_true.mpr ⟨c', hc', by simp [heq]⟩
          have hfalse : rest.any (fun e => decide (e.name = c.name)) = false := by
            rw [← Bool.not_eq_true']
            exact hnodup.1
          rw [hany] at hfalse
          exact Bool.noConfusion hfalse
        intro hba
        exact absurd hba (prefix_branch_disjoint hpb hpa hne)
      · rw [if_neg hf] at ha
        exact absurd ha (List.not_mem_nil a)
end

mutual
theorem walkEntries_depth (maxD : Nat) (e : DirEntry) (depth : Nat)
    (path : List String) (_h : depth ≤ maxD) :
    ∀ pe ∈ walkEntries maxD e depth path,
      pe.1.length ≤ path.length + (maxD - depth) := by
  match e with
  | .mk n d cs =>
    intro pe hpe
    rw [walkEntries] at hpe
    rcases List.mem_cons.mp hpe with rfl | h2
    · exact Nat.le_add_right path.length _
    · by_cases hlt : depth < maxD
      · rw [if_pos hlt] at h2
        exact walkChildren_depth maxD cs depth path hlt pe h2
      · rw [if_neg hlt] at h2
        exact absurd h2 (List.not_mem_nil pe)

theorem walkChildren_depth (maxD : Nat) (cs : List DirEntry) (depth : Nat)
    (path : List String) (h : depth < maxD) :
    ∀ pe ∈ walkChildren maxD cs depth path,
      pe.1.length ≤ path.length + (maxD - depth) := by
  match cs with
  | [] =>
    intro pe hpe
    exact absurd hpe (List.not_mem_nil pe)
  | c :: rest =>
    intro pe hpe
    rw [walkChildren] at hpe
    rcases List.mem_append.mp hpe with h1 | h2
    · by_cases hf : filterEntry c (depth + 1) = true
      · rw [if_pos hf] at h1
        have := walkEntries_depth maxD c (depth + 1) (path ++ [c.name])
          (Nat.succ_le_of_lt h) pe h1
        rw [List.length_append, List.length_singleton] at this
        omega
      · rw [if_neg hf] at h1
        exact absurd h1 (List.not_mem_nil pe)
    · exact walkChildren_depth maxD rest depth path h pe h2
end

theorem walkChildren_append (maxD : Nat) (cs1 cs2 : List DirEntry)
    (depth : Nat) (path : List String) :
    walkChildren maxD (cs1 ++ cs2) depth path
      = walkChildren maxD cs1 depth path ++ walkChildren maxD cs2 depth path := by
  induction cs1 with
  | nil => rfl
  | cons c rest ih =>
    rw [List.cons_append, walkChildren, walkChildren, ih, List.append_assoc]

theorem scanStep_fst_eq_snd (st : List (List String) × List (List String))
    (pe : List String × DirEntry) (h : st.1 = st.2) :
    (scanStep st pe).1 = (scanStep st pe).2 := by
  rw [scanStep]
  split
  · exact h
  · split
    · exact h
    · split
      · rw [h]
      · exact h

theorem scanFold_fst_eq_snd (entries : List (List String × DirEntry))
    (st : List (List String) × List (List String)) (h : st.1 = st.2) :
    ((entries.foldl scanStep st).1) = ((entries.foldl scanStep st).2) := by
  induction entries generalizing st with
  | nil => exact h
  | cons pe rest ih =>
    rw [List.foldl_cons]
    exact ih _ (scanStep_fst_eq_snd st pe h)

theorem scanStep_mem (st : List (List String) × List (List String))
    (pe : List String × DirEntry) {x : List String} (h : x ∈ st.2) :
    x ∈ (scanStep st pe).2 := by
  rw [scanStep]
  split
  · exact h
  · split
    · exact h
    · split
      · exact List.mem_append_left _ h
      · exact h

theorem scanFold_mem (entries : List (List String × DirEntry))
    (st : List (List String) × List (List String)) {x : List String}
    (h : x ∈ st.2) : x ∈ (entries.foldl scanStep st).2 := by
  induction entries generalizing st with
  | nil => exact h
  | cons pe rest ih =>
    rw [List.foldl_cons]
    exact ih _ (scanStep_mem st pe h)

theorem scanStep_source (st : List (List String) × List (List String))
    (pe : List String × DirEntry) {x : List String}
    (h : x ∈ (scanStep st pe).2) :
    x ∈ st.2 ∨ (x = pe.1 ∧ pe.2.isDir = true ∧ is_project_entry pe.2 = true) := by
  rw [scanStep] at h
  by_cases hdir : (!pe.2.isDir) = true
  · rw [if_pos hdir] at h
    exact Or.inl h
  · rw [if_neg hdir] at h
    by_cases hany : (st.1.any fun root => decide (root <+: pe.1) && !decide (pe.1 = root)) = true
    · rw [if_pos hany] at h
      exact Or.inl h
    · rw [if_neg hany] at h
      by_cases hproj : is_project_entry pe.2 = true
      · rw [if_pos hproj] at h
        rcases List.mem_append.mp h with h1 | h2
        · exact Or.inl h1
        · refine Or.inr ⟨List.mem_singleton.mp h2, ?_, hproj⟩
          revert hdir
          rcases pe.2.isDir with _ | _ <;> simp
      · rw [if_neg hproj] at h
        exact Or.inl h

theorem scanFold_source (entries : List (List String × DirEntry))
    (st : List (List String) × List (List String)) {x : List String}
    (h : x ∈ (entries.foldl scanStep st).2) :
    x ∈ st.2 ∨ ∃ pe ∈ entries,
      x = pe.1 ∧ pe.2.isDir = true ∧ is_project_entry pe.2 = true := by
  induction entries generalizing st with
  | nil => exact Or.inl h
  | cons pe rest ih =>
    rw [List.foldl_cons] at h
    rcases ih _ h with h1 | ⟨pe', hpe', hx⟩
    · rcases scanStep_source st pe h1 with h2 | h3
      · exact Or.inl h2
      · exact Or.inr ⟨pe, List.mem_cons_self pe rest, h3⟩
    · exact Or.inr ⟨pe', List.mem_cons_of_mem pe hpe', hx⟩

/-- C3: no path in the result of `scan(root, max_depth)` lies deeper than
`max_depth`, so a project marker at depth `d > max_depth` is never returned. -/
theorem scan_depth_bound (root : DirEntry) (maxD : Nat) (p : List String)
    (hp : p ∈ scan_projects root [] maxD) : p.length ≤ maxD := by
  rw [scan_projects] at hp
  rcases scanFold_source _ _ hp with h1 | ⟨pe, hpe, hx, _, _⟩
  · exact absurd h1 (List.not_mem_nil p)
  · have hb := walkEntries_depth maxD root 0 [] (Nat.zero_le maxD) pe hpe
    rw [hx]
    simpa using hb

/-- A one-level tree whose root carries a `.git` marker entry. -/
def treeW : DirEntry := .mk "root" true [.mk ".git" true []]

theorem scan_depth_bound_witness :
    [] ∈ scan_projects treeW [] 0 ∧ ([] : List String).length ≤ 0 :=
  ⟨by decide, scan_depth_bound treeW 0 [] (by decide)⟩

theorem prefix_singleton {r : List String} {a : String} (h : r <+: [a]) :
    r = [] ∨ r = [a] := by
  rcases r with _ | ⟨x, r'⟩
  · exact Or.inl rfl
  · right
    obtain ⟨t, ht⟩ := h
    rw [List.cons_append] at ht
    injection ht with h1 h2
    subst h1
    rw [(List.append_eq_nil.mp h2).1]

theorem walkEntries_head (maxD : Nat) (e : DirEntry) (depth : Nat)
    (path : List String) :
    ∃ tail, walkEntries maxD e depth path = (path, e) :: tail := by
  match e with
  | .mk n d cs =>
    rw [walkEntries]
    exact ⟨_, rfl⟩

theorem scanFold_pairwise (entries : List (List String × DirEntry))
    (st : List (List String) × List (List String))
    (hfs : st.1 = st.2) (hpw : st.2.Pairwise Incomp)
    (hcross : ∀ f ∈ st.2, ∀ pe ∈ entries, pe.1 <+: f → pe.1 = f)
    (hent : entries.Pairwise Rlater) :
    ((entries.foldl scanStep st).2).Pairwise Incomp := by
  induction entries generalizing st with
  | nil => exact hpw
  | cons pe rest ih =>
    rw [List.pairwise_cons] at hent
    rw [List.foldl_cons]
    refine ih _ (scanStep_fst_eq_snd st pe hfs) ?_ ?_ hent.2
    · rw [scanStep]
      by_cases hdir : (!pe.2.isDir) = true
      · rw [if_pos hdir]
        exact hpw
      · rw [if_neg hdir]
        by_cases hany : (st.1.any fun root => decide (root <+: pe.1) && !decide (pe.1 = root)) = true
        · rw [if_pos hany]
          exact hpw
        · rw [if_neg hany]
          by_cases hproj : is_project_entry pe.2 = true
          · rw [if_pos hproj]
            show (st.2 ++ [pe.1]).Pairwise Incomp
            rw [List.pairwise_append]
            refine ⟨hpw, List.pairwise_singleton _ _, ?_⟩
            intro f hf b hb
            rw [List.mem_singleton] at hb
            subst hb
            constructor
            · intro hfp
              have hanyf : (st.1.any fun root => decide (root <+: pe.1) && !decide (pe.1 = root)) = false := by
                revert hany
                cases st.1.any fun root => decide (root <+: pe.1) && !decide (pe.1 = root)
                · intro _
                  rfl
                · intro hany
                  exact absurd rfl hany
              have hguard := List.any_eq_false.mp hanyf
              have := hguard f (hfs ▸ hf)
              rw [Bool.and_eq_true, not_and] at this
              by_cases hdec : decide (f <+: pe.1) = true
              · have hne := this hdec
                have hd2 : decide (pe.1 = f) = true := by
                  revert hne
                  cases decide (pe.1 = f)
                  · intro hne
                    exact absurd rfl hne
                  · intro _
                    rfl
                exact (of_decide_eq_true hd2).symm
              · exact absurd (decide_eq_true_eq.mpr hfp) hdec
            · intro hpf
              exact hcross f hf pe (List.mem_cons_self pe rest) hpf
          · rw [if_neg hproj]
            exact hpw
    · intro f hf pe' hpe' hpref
      rcases scanStep_source st pe hf with h1 | ⟨rfl, _, _⟩
      · exact hcross f h1 pe' (List.mem_cons_of_mem pe hpe') hpref
      · exact hent.1 pe' hpe' hpref

/-- C2: scanning a well-formed root directory that is not itself a project
root but contains a project directory `P` at depth 1 returns `P`'s path and
never any strict descendant of it (in particular never a project-looking
subdirectory at depth 2 inside `P`): a directory that is a strict descendant
of an already-found project root is skipped and not returned. -/
theorem scan_prunes_nested (rootName : String) (pre post : List DirEntry)
    (P : DirEntry) (maxD : Nat)
    (hwf : dirWf (.mk rootName true (pre ++ P :: post)) = true)
    (hroot : is_project_entry (.mk rootName true (pre ++ P :: post)) = false)
    (hPdir : P.isDir = true) (hPf : filterEntry P 1 = true)
    (hPproj : is_project_entry P = true) (hmax : 2 ≤ maxD) :
    [P.name] ∈ scan_projects (.mk rootName true (pre ++ P :: post)) [] maxD
    ∧ ∀ q ∈ scan_projects (.mk rootName true (pre ++ P :: post)) [] maxD,
        [P.name] <+: q → q = [P.name] := by
  have h0 : 0 < maxD := by omega
  obtain ⟨tail, htail⟩ := walkEntries_head maxD P 1 [P.name]
  have htail' : walkEntries maxD P (0 + 1) [P.name] = ([P.name], P) :: tail := htail
  have hPf' : filterEntry P (0 + 1) = true := hPf
  have hentries : walkEntries maxD (DirEntry.mk rootName true (pre ++ P :: post)) 0 []
      = (([], DirEntry.mk rootName true (pre ++ P :: post)) :: walkChildren maxD pre 0 [])
        ++ (([P.name], P) :: (tail ++ walkChildren maxD post 0 [])) := by
    rw [walkEntries, if_pos h0, walkChildren_append, walkChildren, if_pos hPf',
      List.nil_append, htail']
    simp only [List.cons_append, List.append_assoc]
  have hfs1 : (((([], DirEntry.mk rootName true (pre ++ P :: post))
        :: walkChildren maxD pre 0 []).foldl scanStep ([], [])).1)
      = (((([], DirEntry.mk rootName true (pre ++ P :: post))
        :: walkChildren maxD pre 0 []).foldl scanStep ([], [])).2) :=
    scanFold_fst_eq_snd _ _ rfl
  have hnor : ([] : List String) ∉ (((([], DirEntry.mk rootName true (pre ++ P :: post))
      :: walkChildren maxD pre 0 []).foldl scanStep ([], [])).2) := by
    intro hmem
    rcases scanFold_source _ _ hmem with h | ⟨pe, hpe, hx, hdir2, hproj2⟩
    · exact absurd h (List.not_mem_nil _)
    · rcases List.mem_cons.mp hpe with heq | hpe'
      · rw [heq] at hproj2
        exact absurd hproj2 (by simp [hroot])
      · obtain ⟨c, _, _, hpre2⟩ := walkChildren_extends maxD pre 0 [] pe hpe'
        rw [← hx] at hpre2
        have := hpre2.length_le
        simp at this
  have hguard : ((((([], DirEntry.mk rootName true (pre ++ P :: post))
      :: walkChildren maxD pre 0 []).foldl scanStep ([], [])).1).any
        fun r => decide (r <+: [P.name]) && !decide ([P.name] = r)) = false := by
    rw [List.any_eq_false]
    intro r hr
    by_cases hp : r <+: [P.name]
    · rcases prefix_singleton hp with rfl | rfl
      · rw [hfs1] at hr
        exact absurd hr hnor
      · simp
    · simp [hp]
  have hstep : scanStep ((([], DirEntry.mk rootName true (pre ++ P :: post))
      :: walkChildren maxD pre 0 []).foldl scanStep ([], [])) ([P.name], P)
      = (((([], DirEntry.mk rootName true (pre ++ P :: post))
          :: walkChildren maxD pre 0 []).foldl scanStep ([], [])).1 ++ [[P.name]],
         ((([], DirEntry.mk rootName true (pre ++ P :: post))
          :: walkChildren maxD pre 0 []).foldl scanStep ([], [])).2 ++ [[P.name]]) := by
    rw [scanStep]
    rw [if_neg (show ¬(!(([P.name], P) : List String × DirEntry).2.isDir) = true by
      show ¬(!P.isDir) = true
      rw [hPdir]
      simp)]
    rw [if_neg (show ¬(((((([], DirEntry.mk rootName true (pre ++ P :: post))
        :: walkChildren maxD pre 0 []).foldl scanStep ([], [])).1).any
          fun r => decide (r <+: ([P.name], P).1) && !decide (([P.name], P).1 = r)) = true) by
      show ¬(((((([], DirEntry.mk rootName true (pre ++ P :: post))
        :: walkChildren maxD pre 0 []).foldl scanStep ([], [])).1).any
          fun r => decide (r <+: [P.name]) && !decide ([P.name] = r)) = true)
      rw [hguard]
      simp)]
    rw [if_pos (show is_project_entry (([P.name], P) : List String × DirEntry).2 = true from hPproj)]
  have hPa : [P.name] ∈ scan_projects (.mk rootName true (pre ++ P :: post)) [] maxD := by
    rw [scan_projects, hentries, List.foldl_append, List.foldl_cons, hstep]
    exact scanFold_mem _ _ (List.mem_append_right _ (List.mem_singleton_self _))
  refine ⟨hPa, ?_⟩
  intro q hq hpq
  by_cases heq : q = [P.name]
  · exact heq
  · have hpwent := walkEntries_pairwise maxD
      (DirEntry.mk rootName true (pre ++ P :: post)) 0 [] hwf
    have hfinal : (((walkEntries maxD (DirEntry.mk rootName true (pre ++ P :: post)) 0
        []).foldl scanStep ([], [])).2).Pairwise Incomp :=
      scanFold_pairwise _ ([], []) rfl List.Pairwise.nil
        (fun f hf => absurd hf (List.not_mem_nil f)) hpwent
    have hsymm : Symmetric Incomp := fun a b hab => ⟨hab.2, hab.1⟩
    have hR := hfinal.forall hsymm hPa hq (fun h => heq h.symm)
    exact (hR.1 hpq).symm

/-- A project directory at depth 1 that itself contains a project-looking
subdirectory at depth 2. -/
def projEntry : DirEntry :=
  .mk "proj" true [.mk ".git" true [], .mk "nested" true [.mk ".git" true []]]

theorem scan_prunes_nested_witness :
    [DirEntry.name projEntry]
        ∈ scan_projects (.mk "root" true ([] ++ projEntry :: [])) [] 2
    ∧ ∀ q ∈ scan_projects (.mk "root" true ([] ++ projEntry :: [])) [] 2,
        [DirEntry.name projEntry] <+: q → q = [DirEntry.name projEntry] :=
  scan_prunes_nested "root" [] [] projEntry 2 (by decide) (by decide) rfl
    (by decide) (by decide) (by decide)

/-! ## Navigator, List mode (`src/tui/app.rs`, `src/tui/actions.rs`)

The `run_list` control loop is embedded as a step function on a simulation
state: one `listStep` per key-press event (render passes have no effect on
the state). External collaborators — git status, statistics, clean
execution, process spawns, byte formatting — live in `ListEnv`. `done`
records loop termination with the loop's result; `saved` records the last
persisted database contents (`db.save(config)`). -/

/-- Embeds `stats::GitStatus`. -/
structure GitStatus where
  branch : Option String
  is_dirty : Bool
  changed : Nat
  staged : Nat
  untracked : Nat
  ahead : Nat
  behind : Nat
deriving DecidableEq, Repr

/-- Embeds `stats::LangStats`. -/
structure LangStats where
  code : Nat
  comments : Nat
  blanks : Nat
  files : Nat
deriving DecidableEq, Repr

/-- Embeds `stats::LocStats` (the `BTreeMap` as an association list). -/
structure LocStats where
  languages : List (String × LangStats)
  total_code : Nat
  total_comments : Nat
  total_blanks : Nat
  total_files : Nat
deriving DecidableEq, Repr

/-- Embeds `stats::DiskStats`. -/
structure DiskStats where
  total_bytes : Nat
  artifact_bytes : Nat
deriving DecidableEq, Repr

/-- Embeds `stats::ProjectStats`. -/
structure ProjectStats where
  name : String
  git : Option GitStatus
  loc : LocStats
  disk : DiskStats
deriving DecidableEq, Repr

/-- The key codes `run_list` and `run_picker` react to. -/
inductive KeyCode where
  | Esc
  | Enter
  | Up
  | Down
  | Backspace
  | Char (c : Char)
deriving DecidableEq, Repr

/-- Embeds `actions::ListAction`. -/
inductive ListAction where
  | ViewStats
  | CleanArtifacts
  | OpenEditor
  | OpenExplorer
  | CdToProject
  | Remove
deriving DecidableEq, Repr

/-- Embeds `actions::MenuItem`. -/
structure MenuItem where
  action : ListAction
  label : String
  description : String
deriving DecidableEq, Repr

/-- Embeds `actions::menu_items`: "Clean artifacts" appears only when the
project has recorded artifact directories; the other five items are always
present, "Remove" last. -/
def menu_items (project : Project) : List MenuItem :=
  [{ action := .ViewStats, label := "View stats",
     description := "Show detailed project statistics" }]
  ++ (if project.artifact_dirs.isEmpty then []
      else [{ action := .CleanArtifacts, label := "Clean artifacts",
              description := "Delete build artifact directories" }])
  ++ [{ action := .OpenEditor, label := "Open in editor",
        description := "Open project in $EDITOR" },
      { action := .OpenExplorer, label := "Open in explorer",
        description := "Open project folder in file manager" },
      { action := .CdToProject, label := "cd to project",
        description := "Change directory to project" },
      { action := .Remove, label := "Remove",
        description := "Unregister project from database" }]

/-- Embeds `PendingAction`. -/
inductive PendingAction where
  | Remove
  | CleanArtifacts
deriving DecidableEq, Repr

/-- Embeds `ListMode`. -/
inductive ListMode where
  | Browsing
  | ActionMenu (menu_selected : Nat)
  | ViewingStats (stats : ProjectStats)
  | Confirming (action : String) (on_confirm : PendingAction)
  | CleanResult (message : String)
deriving DecidableEq, Repr

/-- The external collaborators consumed by `run_list`. -/
structure ListEnv where
  git : List String → Option GitStatus
  collect_stats : Project → ProjectStats
  execute_clean : List String → List String → Except String Nat
  show_bytes : Nat → String
  editor_launch_error : Option String
  explorer_spawn_error : Option String

/-- The loop state of `run_list`, plus the termination result (`done`) and
the last persisted database contents (`saved`). -/
structure ListSim where
  projects : List Project
  selected : Nat
  git_statuses : List (Option GitStatus)
  mode : ListMode
  message : Option String
  saved : Option (List Project)
  done : Option (Option (List String))

/-- Embeds the `'y'` branch of the `Confirming` arm: for `Remove`, remove
the selected record, persist, recompute the git-status cache, clamp the
selection, set the confirmation message, return to Browsing — or terminate
with no result when the list became empty; for `CleanArtifacts`, run the
clean collaborator and show its outcome. -/
def confirmYes (env : ListEnv) (sim : ListSim) (onc : PendingAction) : ListSim :=
  match onc with
  | .Remove =>
    match sim.projects.get? sim.selected with
    | none => sim
    | some prj =>
      let projects' := sim.projects.eraseIdx sim.selected
      let selected' :=
        if projects'.length ≤ sim.selected ∧ projects'.isEmpty = false then
          projects'.length - 1
        else sim.selected
      { sim with
        projects := projects',
        saved := some projects',
        git_statuses := projects'.map (fun r => env.git r.path),
        selected := selected',
        message := some ("Removed: " ++ prj.name),
        mode := .Browsing,
        done := if projects'.isEmpty then some none else none }
  | .CleanArtifacts =>
    match sim.projects.get? sim.selected with
    | none => sim
    | some prj =>
      match env.execute_clean prj.path prj.artifact_dirs with
      | .ok bytes =>
        { sim with mode := .CleanResult ("Cleaned " ++ prj.name ++ ": freed " ++ env.show_bytes bytes) }
      | .error e =>
        { sim with mode := .CleanResult ("Error: " ++ e) }

/-- The Browsing arm of the event match. -/
def browsingStep (sim : ListSim) (key : KeyCode) : ListSim :=
  match key with
  | .Esc => { sim with done := some none }
  | .Up =>
    if 0 < sim.selected then { sim with selected := sim.selected - 1 } else sim
  | .Down =>
    if sim.selected + 1 < sim.projects.length then
      { sim with selected := sim.selected + 1 }
    else sim
  | .Enter =>
    if sim.projects.isEmpty then sim
    else { sim with mode := .ActionMenu 0 }
  | .Char c =>
    if c = 'q' then { sim with done := some none }
    else if c = 'k' then
      (if 0 < sim.selected then { sim with selected := sim.selected - 1 } else sim)
    else if c = 'j' then
      (if sim.selected + 1 < sim.projects.length then
        { sim with selected := sim.selected + 1 }
      else sim)
    else sim
  | _ => sim

/-- The ActionMenu arm: menu navigation and dispatch on the selected item. -/
def actionMenuStep (env : ListEnv) (sim : ListSim) (menu_selected : Nat)
    (key : KeyCode) : ListSim :=
  match sim.projects.get? sim.selected with
  | none => sim
  | some prj =>
    match key with
    | .Esc => { sim with mode := .Browsing }
    | .Up =>
      if 0 < menu_selected then { sim with mode := .ActionMenu (menu_selected - 1) }
      else sim
    | .Down =>
      if menu_selected + 1 < (menu_items prj).length then
        { sim with mode := .ActionMenu (menu_selected + 1) }
      else sim
    | .Enter =>
      match (menu_items prj).get? menu_selected with
      | none => sim
      | some item =>
        match item.action with
        | .ViewStats =>
          { sim with mode := .ViewingStats (env.collect_stats prj) }
        | .CleanArtifacts =>
          { sim with mode := .Confirming "Clean artifacts" .CleanArtifacts }
        | .OpenEditor =>
          match env.editor_launch_error with
          | some e =>
            { sim with
                mode := .Browsing,
                message := some ("Failed to launch editor: " ++ e) }
          | none => { sim with mode := .Browsing }
        | .OpenExplorer =>
          { sim with
              mode := .Browsing,
              message := some (match env.explorer_spawn_error with
                | none => "Opened in file manager"
                | some e => "Failed to open file manager: " ++ e) }
        | .CdToProject => { sim with done := some (some prj.path) }
        | .Remove =>
          { sim with mode := .Confirming "Remove project" .Remove }
    | .Char c =>
      if c = 'k' then
        (if 0 < menu_selected then { sim with mode := .ActionMenu (menu_selected - 1) }
        else sim)
      else if c = 'j' then
        (if menu_selected + 1 < (menu_items prj).length then
          { sim with mode := .ActionMenu (menu_selected + 1) }
        else sim)
      else sim
    | _ => sim

/-- The ViewingStats arm: Escape, Enter or `q` return to Browsing. -/
def viewingStatsStep (sim : ListSim) (key : KeyCode) : ListSim :=
  match key with
  | .Esc => { sim with mode := .Browsing }
  | .Enter => { sim with mode := .Browsing }
  | .Char c => if c = 'q' then { sim with mode := .Browsing } else sim
  | _ => sim

/-- The Confirming arm: `y`/`Y` runs the pending action, `n`/`N`/Escape
cancels back to Browsing. -/
def confirmingStep (env : ListEnv) (sim : ListSim) (onc : PendingAction)
    (key : KeyCode) : ListSim :=
  match key with
  | .Esc => { sim with mode := .Browsing }
  | .Char c =>
    if c = 'y' ∨ c = 'Y' then confirmYes env sim onc
    else if c = 'n' ∨ c = 'N' then { sim with mode := .Browsing }
    else sim
  | _ => sim

/-- The CleanResult arm: Escape or Enter return to Browsing. -/
def cleanResultStep (sim : ListSim) (key : KeyCode) : ListSim :=
  match key with
  | .Esc => { sim with mode := .Browsing }
  | .Enter => { sim with mode := .Browsing }
  | _ => sim

/-- One iteration of the `run_list` event loop for a key-press event.
Out-of-bounds indexing (which would panic in the source and cannot occur
under the loop invariants) leaves the state unchanged. -/
def listStep (env : ListEnv) (sim : ListSim) (key : KeyCode) : ListSim :=
  if sim.done.isSome then sim
  else
    match sim.mode with
    | .Browsing => browsingStep sim key
    | .ActionMenu menu_selected => actionMenuStep env sim menu_selected key
    | .ViewingStats _ => viewingStatsStep sim key
    | .Confirming _ onc => confirmingStep env sim onc key
    | .CleanResult _ => cleanResultStep sim key

/-- The state of `run_list` just before its first loop iteration: the early
return on an empty list, else the initial bulk git-status collection with
selection 0 in Browsing. -/
def runListInit (env : ListEnv) (projects : List Project) : ListSim :=
  if projects.isEmpty then
    { projects := projects, selected := 0, git_statuses := [],
      mode := .Browsing, message := none, saved := none, done := some none }
  else
    { projects := projects, selected := 0,
      git_statuses := projects.map (fun p => env.git p.path),
      mode := .Browsing, message := none, saved := none, done := none }

/-- Feed a sequence of key-press events through the loop. -/
def runKeys (env : ListEnv) (keys : List KeyCode) (sim : ListSim) : ListSim :=
  keys.foldl (listStep env) sim

/-- C9: confirming Remove with `y`. With a single project, the key sequence
Enter (to ActionMenu), Down to the last item (Remove), Enter (to
Confirming), `y` terminates the Navigator with no result, persists a
database with zero records, and leaves the live list empty. With at least
two projects, the same confirmation removes the selected record, persists
the shortened list, recomputes the git-status cache for it, clamps the
selection to the new last index when it pointed past the end, sets the
confirmation message, stays in Browsing and does not terminate. -/
theorem navigator_confirm_remove :
    (∀ (env : ListEnv) (p : Project),
        (runKeys env ([KeyCode.Enter]
            ++ List.replicate ((menu_items p).length - 1) KeyCode.Down
            ++ [KeyCode.Enter, KeyCode.Char 'y']) (runListInit env [p])).done
          = some none
        ∧ (runKeys env ([KeyCode.Enter]
            ++ List.replicate ((menu_items p).length - 1) KeyCode.Down
            ++ [KeyCode.Enter, KeyCode.Char 'y']) (runListInit env [p])).saved
          = some []
        ∧ (runKeys env ([KeyCode.Enter]
            ++ List.replicate ((menu_items p).length - 1) KeyCode.Down
            ++ [KeyCode.Enter, KeyCode.Char 'y']) (runListInit env [p])).projects
          = [])
    ∧ (∀ (env : ListEnv) (sim : ListSim) (prj : Project),
        sim.done = none →
        sim.mode = ListMode.Confirming "Remove project" PendingAction.Remove →
        sim.projects.get? sim.selected = some prj →
        2 ≤ sim.projects.length →
        (listStep env sim (.Char 'y')).projects = sim.projects.eraseIdx sim.selected
        ∧ (listStep env sim (.Char 'y')).saved
            = some (sim.projects.eraseIdx sim.selected)
        ∧ (listStep env sim (.Char 'y')).git_statuses
            = (sim.projects.eraseIdx sim.selected).map (fun r => env.git r.path)
        ∧ (listStep env sim (.Char 'y')).selected
            = (if sim.selected = sim.projects.length - 1 then sim.projects.length - 2
               else sim.selected)
        ∧ (listStep env sim (.Char 'y')).message = some ("Removed: " ++ prj.name)
        ∧ (listStep env sim (.Char 'y')).mode = ListMode.Browsing
        ∧ (listStep env sim (.Char 'y')).done = none) := by
  constructor
  · intro env p
    obtain ⟨nm, pth, vcs, bs, ads, at_, tags⟩ := p
    rcases ads with _ | ⟨d, ds⟩
    · simp [runKeys, runListInit, listStep, browsingStep, actionMenuStep,
        confirmingStep, confirmYes, menu_items, List.replicate]
    · simp [runKeys, runListInit, listStep, browsingStep, actionMenuStep,
        confirmingStep, confirmYes, menu_items, List.replicate]
  · intro env sim prj hdone hmode hget hlen
    have hlt : sim.selected < sim.projects.length := (List.get?_eq_some.mp hget).1
    have hlen' : (sim.projects.eraseIdx sim.selected).length
        = sim.projects.length - 1 := by
      rw [List.length_eraseIdx, if_pos hlt]
    have hne : (sim.projects.eraseIdx sim.selected).isEmpty = false := by
      rcases he : (sim.projects.eraseIdx sim.selected).isEmpty with _ | _
      · rfl
      · have hnil := List.isEmpty_iff.mp he
        have hz : (sim.projects.eraseIdx sim.selected).length = 0 := by
          rw [hnil]
          rfl
        omega
    have hstep : listStep env sim (.Char 'y')
        = confirmingStep env sim PendingAction.Remove (.Char 'y') := by
      rw [listStep, hdone, hmode]
      rfl
    have hstep2 : confirmingStep env sim PendingAction.Remove (.Char 'y')
        = confirmYes env sim PendingAction.Remove := by
      rw [confirmingStep]
      exact if_pos (Or.inl rfl)
    rw [hstep, hstep2, confirmYes, hget]
    refine ⟨rfl, rfl, rfl, ?_, rfl, rfl, ?_⟩
    · show (if (sim.projects.eraseIdx sim.selected).length ≤ sim.selected
          ∧ (sim.projects.eraseIdx sim.selected).isEmpty = false then
          (sim.projects.eraseIdx sim.selected).length - 1
        else sim.selected)
        = (if sim.selected = sim.projects.length - 1 then sim.projects.length - 2
           else sim.selected)
      rw [hlen']
      by_cases hsel : sim.selected = sim.projects.length - 1
      · rw [if_pos ⟨by omega, hne⟩, if_pos hsel]
        omega
      · rw [if_neg ?hc, if_neg hsel]
        case hc =>
          rintro ⟨h1, _⟩
          omega
    · show (if (sim.projects.eraseIdx sim.selected).isEmpty then some none else none)
          = none
      rw [hne]
      rfl

/-- A concrete collaborator environment for witnesses. -/
def envW : ListEnv :=
  { git := fun _ => none,
    collect_stats := fun p =>
      { name := p.name, git := none,
        loc := { languages := [], total_code := 0, total_comments := 0,
                 total_blanks := 0, total_files := 0 },
        disk := { total_bytes := 0, artifact_bytes := 0 } },
    execute_clean := fun _ _ => .ok 0,
    show_bytes := fun n => toString n,
    editor_launch_error := none,
    explorer_spawn_error := none }

/-- A concrete Confirming-Remove state with two projects. -/
def simW : ListSim :=
  { projects := [projW, projW2], selected := 0, git_statuses := [none, none],
    mode := .Confirming "Remove project" .Remove, message := none,
    saved := none, done := none }

theorem navigator_confirm_remove_witness :
    (runKeys envW ([KeyCode.Enter]
        ++ List.replicate ((menu_items projW).length - 1) KeyCode.Down
        ++ [KeyCode.Enter, KeyCode.Char 'y']) (runListInit envW [projW])).done
      = some none
    ∧ (listStep envW simW (.Char 'y')).saved
        = some (simW.projects.eraseIdx simW.selected) :=
  ⟨(navigator_confirm_remove.1 envW projW).1,
   (navigator_confirm_remove.2 envW simW projW rfl rfl rfl (by decide)).2.1⟩
